import Mathlib

/-!
Verification development for the doxygen-rs transformation pipeline
(src/src/lexer.rs and src/src/generator.rs), a translator from Doxygen-style
documentation comments to Markdown.

Strings are embedded as `List Char` inside the lexer (Rust iterates over
`char`s of a `&str`, while slicing operates on byte indices, which we model
explicitly).  Rust panics are modelled as explicit `panic` outcomes; the Rust
functions themselves never return errors in the embedded fragments.
-/

namespace Doxygen

/-- Tokens of the lexer, from `LexItem` in src/src/lexer.rs. -/
inductive LexItem where
  | At (s : List Char)
  | Paren (c : Char)
  | Word (s : List Char)
  | Url (s : List Char)
  | Space
  | NewLine
deriving DecidableEq

/-- Number of bytes of the UTF-8 encoding of a character (Rust `char::len_utf8`). -/
def charBytes (c : Char) : Nat :=
  if c.toNat < 0x80 then 1 else if c.toNat < 0x800 then 2 else if c.toNat < 0x10000 then 3 else 4

theorem charBytes_pos (c : Char) : 1 ≤ charBytes c := by
  unfold charBytes
  split
  · exact Nat.le_refl 1
  · split
    · omega
    · split <;> omega

/-- Model of Rust `char::is_alphanumeric` (Unicode Alphabetic ∪ Nd ∪ Nl ∪ No).
It is exact on ASCII and on the Latin-1 supplement; code points above U+00FF do
not occur in this development and are mapped to `false`. -/
def rustIsAlphanumeric (c : Char) : Bool :=
  c.isAlphanum ||
  (c.toNat == 0xAA || c.toNat == 0xB5 || c.toNat == 0xBA) ||
  (0xC0 ≤ c.toNat && c.toNat ≤ 0xFF && c.toNat != 0xD7 && c.toNat != 0xF7)

/-- The fixed URL punctuation set of `consume_url_chars` in src/src/lexer.rs. -/
def urlPunct : List Char := ":/-_,.#%?[]@!$&'*+;=".data

/-- A character the URL scanner accepts (`c.is_alphanumeric() || "...".contains(c)`). -/
def isUrlChar (c : Char) : Bool := rustIsAlphanumeric c || urlPunct.contains c

/-- Char index of the first character rejected by the URL scanner, if any. -/
def firstNonUrl : List Char → Option Nat
  | [] => none
  | c :: rest => if isUrlChar c then (firstNonUrl rest).map (· + 1) else some 0

/-- Byte length of the UTF-8 encoding of a character list (Rust `str::len`). -/
def utf8Len (l : List Char) : Nat := (l.map charBytes).sum

/-- `consume_url_chars` from src/src/lexer.rs: iterates `chars().enumerate()` and
returns the CHAR index `i` of the first non-URL character, falling through to
`chars.len()` — the BYTE length — when every character qualifies. -/
def consume_url_chars (chars : List Char) : Nat :=
  match firstNonUrl chars with
  | some i => i
  | none => utf8Len chars

/-- Rust byte slicing `(&s[..n], &s[n..])`: `some (prefix, suffix)` when byte
index `n` is a character boundary, `none` when the slice panics. -/
def byteSplit : Nat → List Char → Option (List Char × List Char)
  | 0, l => some ([], l)
  | _+1, [] => none
  | n+1, c :: cs =>
    if charBytes c ≤ n+1 then
      (byteSplit (n+1 - charBytes c) cs).map (fun p => (c :: p.1, p.2))
    else none

theorem byteSplit_append : ∀ (l : List Char) (n : Nat) (p s : List Char),
    byteSplit n l = some (p, s) → p ++ s = l := by
  intro l
  induction l with
  | nil =>
    intro n p s h
    cases n with
    | zero =>
      simp only [byteSplit, Option.some.injEq, Prod.mk.injEq] at h
      simp [← h.1, ← h.2]
    | succ m =>
      have hn : byteSplit (m + 1) ([] : List Char) = none := rfl
      rw [hn] at h
      simp at h
  | cons c cs ih =>
    intro n p s h
    cases n with
    | zero =>
      simp only [byteSplit, Option.some.injEq, Prod.mk.injEq] at h
      simp [← h.1, ← h.2]
    | succ m =>
      simp only [byteSplit] at h
      split at h
      · rcases hb : byteSplit (m + 1 - charBytes c) cs with _ | q
        · rw [hb] at h; simp at h
        · rw [hb] at h
          simp only [Option.map_some', Option.some.injEq, Prod.mk.injEq] at h
          have happ := ih _ q.1 q.2 (by rw [hb])
          rw [← h.1, ← h.2]
          simp [happ]
      · simp at h

theorem byteSplit_suffix_le (n : Nat) (l p s : List Char)
    (h : byteSplit n l = some (p, s)) : s.length ≤ l.length := by
  have := byteSplit_append l n p s h
  rw [← this]
  simp

theorem byteSplit_pre_le : ∀ (l : List Char) (n : Nat) (p s : List Char),
    byteSplit n l = some (p, s) → p.length ≤ n := by
  intro l
  induction l with
  | nil =>
    intro n p s h
    cases n with
    | zero =>
      simp only [byteSplit, Option.some.injEq, Prod.mk.injEq] at h
      simp [← h.1]
    | succ m =>
      have hn : byteSplit (m + 1) ([] : List Char) = none := rfl
      rw [hn] at h
      simp at h
  | cons c cs ih =>
    intro n p s h
    cases n with
    | zero =>
      simp only [byteSplit, Option.some.injEq, Prod.mk.injEq] at h
      simp [← h.1]
    | succ m =>
      simp only [byteSplit] at h
      split at h
      · rcases hb : byteSplit (m + 1 - charBytes c) cs with _ | q
        · rw [hb] at h; simp at h
        · rw [hb] at h
          simp only [Option.map_some', Option.some.injEq, Prod.mk.injEq] at h
          have hq := ih _ q.1 q.2 (by rw [hb])
          have := charBytes_pos c
          rw [← h.1]
          simp only [List.length_cons]
          omega
      · simp at h

/-- ASCII letter, the `[a-zA-Z]` class of the HTML-tag regex. -/
def isAsciiLetter (c : Char) : Bool := ('a' ≤ c && c ≤ 'z') || ('A' ≤ c && c ≤ 'Z')

/-- One anchored attempt of the regex `(/?[a-zA-Z]+)>` at the head of `s`:
returns (byte length of the whole match, capture group 1). -/
def htmlAt (s : List Char) : Option (Nat × List Char) :=
  match s with
  | '/' :: rest =>
    let run := rest.takeWhile isAsciiLetter
    if run.length > 0 && ((rest.drop run.length).head? == some '>') then
      some (run.length + 2, '/' :: run)
    else none
  | _ =>
    let run := s.takeWhile isAsciiLetter
    if run.length > 0 && ((s.drop run.length).head? == some '>') then
      some (run.length + 1, run)
    else none

/-- Leftmost match of the regex `(/?[a-zA-Z]+)>` anywhere in `s`
(Rust `Regex::captures` is unanchored). -/
def findHtml : List Char → Option (Nat × List Char)
  | [] => none
  | c :: rest =>
    match htmlAt (c :: rest) with
    | some r => some r
    | none => findHtml rest

/-- One iteration of the `lex` loop of src/src/lexer.rs, after the current
character `c` has been popped: `none` models a Rust panic, otherwise the new
remainder and the new (reversed) token accumulator are returned. -/
def lexStep (c : Char) (rest : List Char) (acc : List LexItem) : Option (List Char × List LexItem) :=
  if c = '@' then some (rest, .At [c] :: acc)
  else if c = '\\' then
    some (rest,
      match acc with
      | .At v :: acc2 => if v = ['\\'] then .At ['\\', '\\'] :: acc2 else .At [c] :: .At v :: acc2
      | _ => .At [c] :: acc)
  else if c = '{' ∨ c = '}' then some (rest, .Paren c :: acc)
  else if c = ' ' then
    some (rest,
      match acc with
      | [] => ([] : List LexItem)
      | t :: acc2 => if t = .Space then t :: acc2 else .Space :: t :: acc2)
  else if c = '\n' then some (rest, .NewLine :: acc)
  else if c = '<' then
    match findHtml rest with
    | some (len, grp) =>
      match byteSplit (len - 1) rest with
      | some (_, suffix) =>
        some (suffix,
          .Word (if grp = ['b', 'r'] then ['<', 'b', 'r', '>'] else ['\\', '<'] ++ grp ++ ['\\', '>']) :: acc)
      | none => none
    | none => some (rest, .Word ['<'] :: acc)
  else if c = 'h' ∧ (List.isPrefixOf ("ttp://".data) rest ∨ List.isPrefixOf ("ttps://".data) rest) then
    match byteSplit (consume_url_chars rest) rest with
    | some (pre, suffix) => some (suffix, .Url (c :: pre) :: acc)
    | none => none
  else
    some (rest,
      match acc with
      | .Word v :: acc2 => .Word (v ++ [c]) :: acc2
      | _ => .Word [c] :: acc)

/-- Result of running the lexer: `panic` models a Rust panic; `fuelOut` is an
artefact of the fuelled recursion and is proved unreachable below. -/
inductive LexResult where
  | ok (ts : List LexItem)
  | panic
  | fuelOut
deriving DecidableEq

/-- Fuelled driver of the `lex` loop; the accumulator is kept reversed
(most recent token first), mirroring `result.last_mut()` access. -/
def lexFuel : Nat → List Char → List LexItem → LexResult
  | _, [], acc => .ok acc
  | 0, _ :: _, _ => .fuelOut
  | fuel+1, c :: rest, acc =>
    match lexStep c rest acc with
    | none => .panic
    | some (r, a) => lexFuel fuel r a

/-- `lex` from src/src/lexer.rs. -/
def lex (s : List Char) : LexResult :=
  match lexFuel s.length s [] with
  | .ok acc => .ok acc.reverse
  | r => r

theorem lexStep_rest_le (c : Char) (rest : List Char) (acc : List LexItem)
    (r : List Char) (a : List LexItem) (h : lexStep c rest acc = some (r, a)) :
    r.length ≤ rest.length := by
  unfold lexStep at h
  split_ifs at h with h1 h2 h3 h4 h5 h6 h7
  · simp only [Option.some.injEq, Prod.mk.injEq] at h; rw [← h.1]
  · simp only [Option.some.injEq, Prod.mk.injEq] at h; rw [← h.1]
  · simp only [Option.some.injEq, Prod.mk.injEq] at h; rw [← h.1]
  · simp only [Option.some.injEq, Prod.mk.injEq] at h; rw [← h.1]
  · simp only [Option.some.injEq, Prod.mk.injEq] at h; rw [← h.1]
  · -- html branch
    split at h
    next len grp heq =>
      split at h
      next fst suffix hbs =>
        simp only [Option.some.injEq, Prod.mk.injEq] at h
        rw [← h.1]
        exact byteSplit_suffix_le _ _ _ _ hbs
      next hbs => exact absurd h (by simp)
    next heq =>
      simp only [Option.some.injEq, Prod.mk.injEq] at h
      rw [← h.1]
  · -- url branch
    split at h
    next pre suffix hbs =>
      simp only [Option.some.injEq, Prod.mk.injEq] at h
      rw [← h.1]
      exact byteSplit_suffix_le _ _ _ _ hbs
    next hbs => exact absurd h (by simp)
  · simp only [Option.some.injEq, Prod.mk.injEq] at h; rw [← h.1]

/-- With enough fuel the fuelled lexer never reports fuel exhaustion, so `lex`
either returns tokens or panics. -/
theorem lexFuel_ne_fuelOut : ∀ (fuel : Nat) (remains : List Char) (acc : List LexItem),
    remains.length ≤ fuel → lexFuel fuel remains acc ≠ .fuelOut := by
  intro fuel
  induction fuel with
  | zero =>
    intro remains acc h
    match remains with
    | [] => simp [lexFuel]
    | _ :: _ => simp at h
  | succ n ih =>
    intro remains acc h
    match remains with
    | [] => simp [lexFuel]
    | c :: rest =>
      simp only [lexFuel]
      rcases hs : lexStep c rest acc with _ | p
      · simp
      · have hr := lexStep_rest_le c rest acc p.1 p.2 (by rw [hs])
        simp only [List.length_cons] at h
        exact ih p.1 p.2 (by omega)

theorem lex_ne_fuelOut (s : List Char) : lex s ≠ .fuelOut := by
  unfold lex
  rcases h : lexFuel s.length s [] with ts | _ | _
  · simp
  · simp
  · exact absurd h (lexFuel_ne_fuelOut s.length s [] (Nat.le_refl _))


/-! ## Generator (src/src/generator.rs) -/

/-- Grammar items consumed by the generator; embeds `GrammarItem` from the
Rust parser module.  `Directive` embeds the Rust `Notation { tag, meta, params }`
variant (renamed for this development). -/
inductive GrammarItem where
  | Directive (tag : String) (meta : List String) (params : List String)
  | Text (s : String)
  | GroupStart
  | GroupEnd
  | Url (s : String)
deriving DecidableEq

/-- The per-document generation flags, from `GenState` in src/src/generator.rs. -/
structure GenState where
  already_added_params : Bool := false
  already_added_returns : Bool := false
  already_added_throws : Bool := false
  already_added_pre : Bool := false
  already_added_post : Bool := false
  already_added_see : Bool := false
deriving DecidableEq

/-- Result of `generate_notation`: the Rust function has result type
`Result<(String, GenState), ParseError>` but no code path returns `Err`;
every failure is a panic via `.expect(..)`, modelled by `panic`. -/
inductive TagResult where
  | ok (s : String) (st : GenState)
  | panic (msg : String)
deriving DecidableEq

/-- Result of the generation loop of `rustdoc`; `panic` propagates a
`generate_notation` panic. -/
inductive GenResult where
  | ok (s : String)
  | panic (msg : String)
deriving DecidableEq

/-- The external emoji symbol table (`crate::emojis::EMOJIS`).
Modelled from the spec: the table itself is an excluded external collaborator
(spec §1, §6); we embed the finite fragment of entries that the spec's
scenarios name (§8: `:relieved:` → 😌, `:ok_hand:` → 👌, `:pray:` → 🙏). -/
def EMOJIS : List (String × String) := [("relieved", "😌"), ("ok_hand", "👌"), ("pray", "🙏")]

/-- Exact-key lookup in the emoji table (`EMOJIS.get(&key)`). -/
def emojiLookup (key : String) : Option String :=
  (EMOJIS.find? (fun p => p.1 == key)).map (fun p => p.2)

/-- `word.replace(':', "")` from the emoji branch. -/
def stripColons (s : String) : String := String.mk (s.data.filter (fun c => c != ':'))

/-- `v.replacen("*", "", 1)`: remove the first literal `*`, if any. -/
def removeFirstStar : List Char → List Char
  | [] => []
  | c :: rest => if c = '*' then rest else c :: removeFirstStar rest

/-- String form of `replacen("*", "", 1)`. -/
def replacenStar (s : String) : String := String.mk (removeFirstStar s.data)

/-- `generate_notation` from src/src/generator.rs (renamed: tag dispatch). -/
def genTag (tag : String) (meta : List String) (params : List String) (gen_state : GenState) : TagResult :=
  match tag with
  | "param" =>
    let str1 : String := if !gen_state.already_added_params then "# Arguments\n\n " else ""
    let entry : String :=
      match params.head? with
      | some param =>
        match meta with
        | [] => "* `" ++ param ++ "` -"
        | m0 :: ms =>
          match ms with
          | second :: _ => "* `" ++ param ++ "` (direction " ++ m0 ++ ", " ++ second ++ ") -"
          | [] => "* `" ++ param ++ "` (direction " ++ m0 ++ ") -"
      | none => ""
    .ok (str1 ++ entry) { already_added_params := true }
  | "a" | "e" | "em" =>
    match params.head? with
    | some word => .ok ("_" ++ word ++ "_") {}
    | none => .panic ("@a/@e/@em doesn't contain a word to style")
  | "b" =>
    match params.head? with
    | some word => .ok ("**" ++ word ++ "**") {}
    | none => .panic ("@b doesn't contain a word to style")
  | "c" | "p" =>
    match params.head? with
    | some word => .ok ("`" ++ word ++ "`") {}
    | none => .panic ("@c/@p doesn't contain a word to style")
  | "emoji" =>
    match params.head? with
    | some word =>
      match emojiLookup (stripColons word) with
      | some glyph => .ok glyph {}
      | none => .panic ("invalid emoji")
    | none => .panic ("@emoji doesn't contain an emoji")
  | "sa" | "see" =>
    let hs : String × GenState :=
      if !gen_state.already_added_see then ("# See also\n\n ", { already_added_see := true })
      else ("", {})
    let entry : String :=
      match params.head? with
      | some code_ref => "[`" ++ code_ref ++ "`]"
      | none => ""
    .ok (hs.1 ++ entry) hs.2
  | "retval" =>
    match params.head? with
    | some var =>
      let str1 : String := if !gen_state.already_added_returns then "# Returns\n\n " else ""
      .ok (str1 ++ ("* `" ++ var ++ "` -")) { already_added_returns := true }
    | none => .panic ("@retval doesn't contain a parameter")
  | "returns" | "return" | "result" =>
    .ok (if !gen_state.already_added_returns then "# Returns\n\n " else "") { already_added_returns := true }
  | "throw" | "throws" | "exception" =>
    match params.head? with
    | some exc =>
      let str1 : String := if !gen_state.already_added_throws then "# Throws\n\n " else ""
      .ok (str1 ++ ("* [`" ++ exc ++ "`] -")) { already_added_throws := true }
    | none => .panic ("@param doesn't contain a parameter")
  | "note" => .ok ("> **Note:** ") {}
  | "since" => .ok ("> Available since: ") {}
  | "deprecated" => .ok ("> **Deprecated** ") {}
  | "remark" | "remarks" => .ok ("> ") {}
  | "par" => .ok ("# ") {}
  | "pre" =>
    let str1 : String := if !gen_state.already_added_pre then "# Precondition\n\n " else ""
    let entry : String :=
      match params.head? with
      | some precondition => "* " ++ precondition
      | none => ""
    .ok (str1 ++ entry) { already_added_pre := true }
  | "post" =>
    let str1 : String := if !gen_state.already_added_post then "# Postcondition\n\n " else ""
    let entry : String :=
      match params.head? with
      | some postcondition => "* " ++ postcondition
      | none => ""
    .ok (str1 ++ entry) { already_added_post := true }
  | "details" => .ok ("\n\n ") {}
  | "brief" | "short" => .ok ("") {}
  | _ => .ok ("") {}

/-- The flag merge performed by the `rustdoc` loop after each `Notation` item:
`params`, `returns`, `throws`, `pre` and `post` are copied from the returned
state, while `already_added_see` is (as in the source) never copied back. -/
def mergeState (gen_state new_gen_state : GenState) : GenState :=
  { already_added_params := gen_state.already_added_params || new_gen_state.already_added_params,
    already_added_returns := gen_state.already_added_returns || new_gen_state.already_added_returns,
    already_added_throws := gen_state.already_added_throws || new_gen_state.already_added_throws,
    already_added_pre := gen_state.already_added_pre || new_gen_state.already_added_pre,
    already_added_post := gen_state.already_added_post || new_gen_state.already_added_post,
    already_added_see := gen_state.already_added_see }

/-- The generation loop of `rustdoc` from src/src/generator.rs, over the parsed
item sequence, threading the flag state and the `group_started` flag. -/
def rustdocItems : List GrammarItem → GenState → Bool → GenResult
  | [], _, _ => .ok ("")
  | item :: rest, gen_state, group_started =>
    match item with
    | .Directive tag meta params =>
      match genTag tag meta params gen_state with
      | .panic m => .panic m
      | .ok str new_gen_state =>
        match rustdocItems rest (mergeState gen_state new_gen_state) group_started with
        | .panic m => .panic m
        | .ok tl => .ok (str ++ tl)
    | .Text v =>
      match rustdocItems rest gen_state group_started with
      | .panic m => .panic m
      | .ok tl => .ok ((if group_started then replacenStar v else v) ++ tl)
    | .GroupStart =>
      match rustdocItems rest gen_state true with
      | .panic m => .panic m
      | .ok tl => .ok ("# " ++ tl)
    | .GroupEnd => rustdocItems rest gen_state false
    | .Url url =>
      match rustdocItems rest gen_state group_started with
      | .panic m => .panic m
      | .ok tl => .ok ("<" ++ url ++ ">" ++ tl)


/-! ## Parser (spec-modelled)

The repository's `parser.rs` is not part of the provided sources (only its
consumers are), so the parser is modelled from spec §4.2 / §7. -/

/-- Textual content of a token: spaces render as one space, newlines as one
newline (spec §3 concatenation invariant). -/
def tokText : LexItem → List Char
  | .At s => s
  | .Paren c => [c]
  | .Word s => s
  | .Url s => s
  | .Space => [' ']
  | .NewLine => ['\n']

/-- Modelled from the spec: the parse-failure taxonomy of §7 (`parser.rs` is
missing from the sources).  The last two kinds are listed by the spec but in
the provided sources the corresponding failures are generator panics. -/
inductive ParseError where
  | MalformedModifierList
  | UnmatchedGroupEnd
  | UnterminatedGroup
  | MissingRequiredParameter
  | UnknownSymbol
deriving DecidableEq

/-- Modelled from the spec (§4.2): direction modifiers drawn from in/out are
canonicalized to `in` before `out` and deduplicated; other modifier lists are
kept as written. -/
def canonDirections (ms : List String) : List String :=
  if ms ≠ [] ∧ ms.all (fun m => m == "in" || m == "out") then
    (if ms.contains "in" then ["in"] else []) ++ (if ms.contains "out" then ["out"] else [])
  else ms

/-- Split a character list at commas (the comma-separated modifier entries). -/
def splitCommas : List Char → List (List Char)
  | [] => [[]]
  | c :: rest =>
    if c = ',' then [] :: splitCommas rest
    else
      match splitCommas rest with
      | g :: gs => (c :: g) :: gs
      | [] => [[c]]

/-- Trim whitespace from both ends of a character list. -/
def trimChars (l : List Char) : List Char :=
  ((l.dropWhile Char.isWhitespace).reverse.dropWhile Char.isWhitespace).reverse

/-- Modelled from the spec (§4.2, §7): the optional bracketed modifier suffix
of a tag word, comma-separated and trimmed; an unterminated `[` is a
`MalformedModifierList` failure. -/
def parseMeta (r : List Char) : Except ParseError (List String) :=
  match r with
  | '[' :: rest =>
    if rest.contains ']' then
      Except.ok (canonDirections
        ((splitCommas (rest.takeWhile (fun c => c != ']'))).map (fun g => String.mk (trimChars g))))
    else Except.error ParseError.MalformedModifierList
  | _ => Except.ok []

/-- Modelled from the spec (§4.2): tags with no parameter capture. -/
def zeroArityTags : List String :=
  ["brief", "short", "details", "note", "since", "deprecated", "remark", "remarks", "par",
   "returns", "return", "result"]

/-- Modelled from the spec (§4.2): tags capturing one word. -/
def oneWordTags : List String :=
  ["a", "e", "em", "b", "c", "p", "emoji", "sa", "see", "retval", "throw", "throws",
   "exception", "param"]

/-- Modelled from the spec (§4.2): tags capturing the rest of the line. -/
def lineTags : List String := ["pre", "post"]

/-- Skip separating `Space` tokens during parameter capture (spec §4.2). -/
def skipSpaces : List LexItem → List LexItem
  | .Space :: rest => skipSpaces rest
  | l => l

/-- Modelled from the spec (§4.2): one-word capture — skip spaces and consume
the next `Word`; stop (capturing nothing) at anything else. -/
def captureOne (toks : List LexItem) : Option String × List LexItem :=
  match skipSpaces toks with
  | .Word w :: rest => (some (String.mk w), rest)
  | _ => (none, toks)

/-- Modelled from the spec (§4.2): rest-of-line capture for `pre`/`post` — the
remaining text up to (not including) the next `NewLine` or tag marker. -/
def captureLine : List LexItem → (List Char × List LexItem)
  | [] => ([], [])
  | .NewLine :: rest => ([], .NewLine :: rest)
  | .At v :: rest => ([], .At v :: rest)
  | t :: rest =>
    let p := captureLine rest
    (tokText t ++ p.1, p.2)

/-- Modelled from the spec (§4.2): the single separating space after the tag
word is consumed by directive recognition (the description that follows is kept
verbatim as `Text` otherwise). -/
def skipOneSpace : List LexItem → List LexItem
  | .Space :: rest => rest
  | l => l

/-- Flush the pending text buffer as a `Text` item (items are accumulated in
reverse order). -/
def flushText (buf : List Char) (items : List GrammarItem) : List GrammarItem :=
  if buf = [] then items else .Text (String.mk buf) :: items

/-- Result of parsing; `fuelOut` is an artefact of the fuelled recursion and
does not occur for the concrete inputs evaluated below. -/
inductive ParseResult where
  | ok (items : List GrammarItem)
  | err (e : ParseError)
  | fuelOut
deriving DecidableEq

/-- Modelled from the spec (§4.2, §4.2 grouping, §7): the parser loop.
`depth` counts open groups; `buf` is the pending literal text. -/
def parseFuel : Nat → List LexItem → Nat → List Char → List GrammarItem → ParseResult
  | _, [], depth, buf, items =>
    if depth ≠ 0 then .err ParseError.UnterminatedGroup else .ok (flushText buf items).reverse
  | 0, _ :: _, _, _, _ => .fuelOut
  | fuel+1, .At _ :: .Paren '{' :: rest, depth, buf, items =>
    parseFuel fuel rest (depth + 1) [] (.GroupStart :: flushText buf items)
  | fuel+1, .At _ :: .Paren '}' :: rest, depth, buf, items =>
    if depth = 0 then .err ParseError.UnmatchedGroupEnd
    else parseFuel fuel rest (depth - 1) [] (.GroupEnd :: flushText buf items)
  | fuel+1, .At _ :: .Word w :: rest, depth, buf, items =>
    match parseMeta (w.dropWhile Char.isAlpha) with
    | .error e => .err e
    | .ok meta =>
      let tagS : String := String.mk (w.takeWhile Char.isAlpha)
      let rest1 : List LexItem := skipOneSpace rest
      let pr : List String × List LexItem :=
        if zeroArityTags.contains tagS then ([], rest1)
        else if lineTags.contains tagS then
          let p := captureLine (skipSpaces rest1)
          (if p.1 = [] then [] else [String.mk p.1], p.2)
        else if oneWordTags.contains tagS then
          match captureOne rest1 with
          | (some w1, r) => ([w1], r)
          | (none, r) => ([], r)
        else ([], rest1)
      parseFuel fuel pr.2 depth [] (.Directive tagS meta pr.1 :: flushText buf items)
  | fuel+1, .Url u :: rest, depth, buf, items =>
    parseFuel fuel rest depth [] (.Url (String.mk u) :: flushText buf items)
  | fuel+1, t :: rest, depth, buf, items =>
    parseFuel fuel rest depth (buf ++ tokText t) items

/-- Modelled from the spec (§4.2): `parse(tokens)`. -/
def parse (toks : List LexItem) : ParseResult := parseFuel toks.length toks 0 [] []

/-- Outcome of the whole `rustdoc` transform on one input string. -/
inductive RunOutcome where
  | ok (s : String)
  | parseErr (e : ParseError)
  | panic (msg : String)
  | fuelOut
deriving DecidableEq

/-- `rustdoc` from src/src/generator.rs: lex, parse, then generate.  Lexer and
generator panics surface as `panic`; parse errors as `parseErr`.  (`parse` is
spec-modelled, see above.) -/
def rustdoc (input : String) : RunOutcome :=
  match lex input.data with
  | .panic => .panic ("byte index is not a char boundary")
  | .fuelOut => .fuelOut
  | .ok toks =>
    match parse toks with
    | .err e => .parseErr e
    | .fuelOut => .fuelOut
    | .ok items =>
      match rustdocItems items {} false with
      | .ok s => .ok s
      | .panic m => .panic m


/-! ## Helper operations and lemmas shared by the claim theorems -/

/-- Concatenation of a list of strings. -/
def joinAll : List String → String
  | [] => ""
  | x :: rest => x ++ joinAll rest

theorem rustdocItems_text_cons (v : String) (L : List GrammarItem) (gs : GenState) :
    rustdocItems (GrammarItem.Text v :: L) gs true =
      match rustdocItems L gs true with
      | .panic m => .panic m
      | .ok tl => .ok (replacenStar v ++ tl) := rfl

theorem rustdocItems_group_texts (vs : List String) :
    ∀ (rest : List GrammarItem) (gs : GenState),
    rustdocItems (vs.map GrammarItem.Text ++ GrammarItem.GroupEnd :: rest) gs true =
      match rustdocItems rest gs false with
      | .panic m => .panic m
      | .ok tl => .ok (joinAll (vs.map replacenStar) ++ tl) := by
  induction vs with
  | nil =>
    intro rest gs
    have hbase : rustdocItems ([] ++ GrammarItem.GroupEnd :: rest) gs true =
        rustdocItems rest gs false := rfl
    rw [List.map_nil, hbase]
    rcases h : rustdocItems rest gs false with tl | m
    · simp [joinAll, String.empty_append]
    · simp
  | cons v vs ih =>
    intro rest gs
    rw [List.map_cons, List.cons_append, rustdocItems_text_cons, ih rest gs]
    rcases h : rustdocItems rest gs false with tl | m
    · simp [joinAll, String.append_assoc]
    · simp

/-! ## Claim C1 -/

/-- Claim C1 (code_bug evidence): the claim states that repeated directives of
one section family yield exactly one heading line; for the `sa`/`see` family
the code emits the `# See also` heading before EVERY entry, because the
`rustdoc` loop never copies `already_added_see` back into its state.
Evaluating the generator on a document with an `sa` and a `see` directive
produces the heading twice. -/
theorem sa_see_heading_emitted_twice :
    rustdocItems [GrammarItem.Directive ("sa") [] ["a"], GrammarItem.Directive ("see") [] ["b"]] {} false =
      .ok ("# See also\n\n [`a`]# See also\n\n [`b`]") := rfl

/-! ## Claim C2 -/

/-- Claim C2 counterexample: the claim states that while a group is active only
the FIRST `Text` item has its first `*` removed and subsequent `Text` items are
emitted unmodified.  On `[GroupStart, Text "* a", Text "* b", GroupEnd]` the
code strips the `*` of the second `Text` as well, so the output is
`"#  a b"` rather than the claim's `"#  a* b"`. -/
theorem group_second_text_also_stripped :
    rustdocItems [GrammarItem.GroupStart, GrammarItem.Text ("* a"), GrammarItem.Text ("* b"),
        GrammarItem.GroupEnd] {} false = .ok ("#  a b") ∧
      GenResult.ok ("#  a b") ≠ GenResult.ok ("#  a* b") :=
  ⟨rfl, by decide⟩

/-- Claim C2 (amended): while a group is active EVERY `Text` item rendered has
its first literal `*` character removed (exactly one occurrence per item,
`replacen(.., 1)`), until the matching `GroupEnd` resets the group flag;
rendering then continues on the remaining items with the group inactive. -/
theorem group_strips_star_from_every_text (vs : List String) (rest : List GrammarItem)
    (gs : GenState) (b : Bool) :
    rustdocItems (GrammarItem.GroupStart :: (vs.map GrammarItem.Text ++ GrammarItem.GroupEnd :: rest)) gs b =
      match rustdocItems rest gs false with
      | .panic m => .panic m
      | .ok tl => .ok ("# " ++ (joinAll (vs.map replacenStar) ++ tl)) := by
  simp only [rustdocItems]
  rw [rustdocItems_group_texts vs rest gs]
  rcases h : rustdocItems rest gs false with tl | m
  · simp
  · simp

/-! ## Claim C3 -/

/-- Claim C3 (code_bug evidence): the claim states `lex` is total, in
particular on URLs containing non-ASCII characters.  On `"http://é("` the URL
scanner counts 7 characters before the terminating `(`, but byte index 7 falls
inside the two-byte encoding of `é`, so the slice `&remains[..len]` panics. -/
theorem lex_panics_on_multibyte_url : lex ("http://é(".data) = .panic := rfl

/-! ## Claim C4 -/

/-- Claim C4 counterexample: the claim states an unknown emoji shortcode is
surfaced as a typed `UnknownSymbol` error.  The code instead aborts via
`.expect("invalid emoji")`: the outcome is a panic, not a `parseErr`. -/
theorem unknown_emoji_panics_not_typed_error :
    rustdoc ("@emoji :invalid:") = .panic ("invalid emoji") := rfl

/-- Claim C4 (amended): for every emoji directive whose shortcode (with the
surrounding colons stripped) is not a key of the symbol table, generation fails
with the unconditional panic `"invalid emoji"` — the output is not silently
omitted, but the failure is an untyped abort rather than a typed error. -/
theorem emoji_missing_shortcode_panics (word : String) (ps : List String)
    (meta : List String) (gs : GenState) (h : emojiLookup (stripColons word) = none) :
    genTag ("emoji") meta (word :: ps) gs = .panic ("invalid emoji") := by
  simp [genTag, h]

/-- Witness for the amended Claim C4 theorem at the shortcode `:invalid:`. -/
theorem emoji_missing_shortcode_panics_witness :
    emojiLookup (stripColons (":invalid:")) = none ∧
      genTag ("emoji") [] [":invalid:"] {} = .panic ("invalid emoji") :=
  ⟨rfl, emoji_missing_shortcode_panics (":invalid:") [] [] {} rfl⟩

/-! ## Claim C6 -/

/-- Claim C6 (code_bug evidence): the claim (and the repository's own test)
expect `"# Arguments\n\n* `example` (direction in) - This insane thing."`, but
the heading literal in `generate_notation` is `"# Arguments\n\n "` with a
trailing space, so the transform actually yields an extra space before the
bullet. -/
theorem param_in_roundtrip_extra_space :
    rustdoc ("@param[in] example This insane thing.") =
      .ok ("# Arguments\n\n * `example` (direction in) - This insane thing.") := rfl

/-! ## Claim C7 -/

/-- Claim C7 (code_bug evidence): the claim states that after a matched HTML
closing tag, scanning resumes immediately after the matched `>`.  The code
advances by `captures[0].len() - 1` bytes from the current position, which
leaves the final `>` unconsumed: lexing `"<br>"` re-scans the `>` and appends
it to the rewritten word, producing `Word "<br>>"` instead of `Word "<br>"`. -/
theorem html_close_angle_rescanned :
    lex ("<br>".data) = .ok [LexItem.Word ("<br>>".data)] := rfl

/-! ## Claim C10 -/

/-- Claim C10: rendering a `param` notation with an empty params list succeeds
for every generator state and meta list: it emits only the `# Arguments`
heading (the literal `"# Arguments\n\n "`) on the family's first occurrence and
the empty string on repeats, with no bullet entry and no missing-parameter
failure. -/
theorem param_empty_params_ok (gs : GenState) (meta : List String) :
    genTag ("param") meta [] gs =
      .ok (if gs.already_added_params then "" else "# Arguments\n\n ")
        { already_added_params := true } := by
  cases h : gs.already_added_params <;>
    simp [genTag, h, String.append_empty]


/-! ## Space-collapsing invariants of the lexer (Claims C8, C9) -/

/-- No two adjacent tokens of the list are both `Space`. -/
def RSpace (a b : LexItem) : Prop := ¬(a = .Space ∧ b = .Space)

/-- The token list never contains two adjacent `Space` tokens. -/
def noTwoSpaces (ts : List LexItem) : Prop := List.Chain' RSpace ts

instance : DecidableRel RSpace := fun _ _ => instDecidableNot

theorem RSpace_of_left (t y : LexItem) (ht : t ≠ .Space) : RSpace t y := fun hc => ht hc.1

theorem RSpace_of_right (t y : LexItem) (hy : y ≠ .Space) : RSpace t y := fun hc => hy hc.2

/-- Invariant of the reversed token accumulator: no adjacent `Space`s anywhere,
and the OLDEST token (the list's last, i.e. the first token emitted) is not a
`Space`. -/
def accInv (acc : List LexItem) : Prop :=
  List.Chain' RSpace acc ∧ acc.getLast? ≠ some LexItem.Space

theorem accInv_nil : accInv [] := ⟨List.chain'_nil, by simp⟩

theorem accInv_push (t : LexItem) (acc : List LexItem) (ht : t ≠ .Space) (hI : accInv acc) :
    accInv (t :: acc) := by
  refine ⟨List.chain'_cons'.mpr ⟨fun y _ => RSpace_of_left t y ht, hI.1⟩, ?_⟩
  cases acc with
  | nil =>
    rw [List.getLast?_singleton]
    simpa using ht
  | cons u l =>
    rw [List.getLast?_cons_cons]
    exact hI.2

theorem accInv_tail (t : LexItem) (acc : List LexItem) (hI : accInv (t :: acc)) : accInv acc := by
  refine ⟨(List.chain'_cons'.mp hI.1).2, ?_⟩
  cases acc with
  | nil => simp
  | cons u l =>
    have h2 := hI.2
    rw [List.getLast?_cons_cons] at h2
    exact h2

theorem accInv_replace (t t' : LexItem) (acc : List LexItem) (ht' : t' ≠ .Space)
    (hI : accInv (t :: acc)) : accInv (t' :: acc) :=
  accInv_push t' acc ht' (accInv_tail t acc hI)

theorem accInv_space_push (t : LexItem) (acc : List LexItem) (ht : t ≠ .Space)
    (hI : accInv (t :: acc)) : accInv (.Space :: t :: acc) := by
  refine ⟨List.chain'_cons'.mpr ⟨?_, hI.1⟩, ?_⟩
  · intro y hy
    rw [List.head?_cons, Option.mem_def, Option.some.injEq] at hy
    exact RSpace_of_right _ _ (hy ▸ ht)
  · rw [List.getLast?_cons_cons]
    exact hI.2

theorem lexStep_accInv (c : Char) (rest : List Char) (acc : List LexItem) (r : List Char)
    (a : List LexItem) (h : lexStep c rest acc = some (r, a)) (hI : accInv acc) : accInv a := by
  unfold lexStep at h
  split_ifs at h with e1 e2 e3 e4 e5 e6 e7
  · simp only [Option.some.injEq, Prod.mk.injEq] at h
    exact h.2 ▸ accInv_push _ _ (by simp) hI
  · -- backslash branch: merge into a previous single-backslash marker or push
    simp only [Option.some.injEq, Prod.mk.injEq] at h
    rcases h with ⟨hr, ha⟩
    subst hr
    split at ha
    next v acc2 =>
      split at ha
      · exact ha ▸ accInv_replace _ _ _ (by simp) hI
      · exact ha ▸ accInv_push _ _ (by simp) hI
    next => exact ha ▸ accInv_push _ _ (by simp) hI
  · simp only [Option.some.injEq, Prod.mk.injEq] at h
    exact h.2 ▸ accInv_push _ _ (by simp) hI
  · -- space branch
    simp only [Option.some.injEq, Prod.mk.injEq] at h
    rcases h with ⟨hr, ha⟩
    subst hr
    split at ha
    next => exact ha ▸ accInv_nil
    next t acc2 =>
      split at ha
      next ht => exact ha ▸ hI
      next ht => exact ha ▸ accInv_space_push t acc2 ht hI
  · simp only [Option.some.injEq, Prod.mk.injEq] at h
    exact h.2 ▸ accInv_push _ _ (by simp) hI
  · -- html branch
    split at h
    next len grp heq =>
      split at h
      next fst suffix hbs =>
        simp only [Option.some.injEq, Prod.mk.injEq] at h
        exact h.2 ▸ accInv_push _ _ (by simp) hI
      next hbs => exact absurd h (by simp)
    next heq =>
      simp only [Option.some.injEq, Prod.mk.injEq] at h
      exact h.2 ▸ accInv_push _ _ (by simp) hI
  · -- url branch
    split at h
    next pre suffix hbs =>
      simp only [Option.some.injEq, Prod.mk.injEq] at h
      exact h.2 ▸ accInv_push _ _ (by simp) hI
    next hbs => exact absurd h (by simp)
  · -- default branch: append to a previous word or push a fresh word
    simp only [Option.some.injEq, Prod.mk.injEq] at h
    rcases h with ⟨hr, ha⟩
    subst hr
    split at ha
    next v acc2 => exact ha ▸ accInv_replace _ _ _ (by simp) hI
    next => exact ha ▸ accInv_push _ _ (by simp) hI

theorem lexFuel_accInv : ∀ (fuel : Nat) (remains : List Char) (acc ts : List LexItem),
    lexFuel fuel remains acc = .ok ts → accInv acc → accInv ts := by
  intro fuel
  induction fuel with
  | zero =>
    intro remains acc ts h hI
    cases remains with
    | nil =>
      simp only [lexFuel, LexResult.ok.injEq] at h
      rwa [← h]
    | cons c rest =>
      have hf : lexFuel 0 (c :: rest) acc = .fuelOut := rfl
      rw [hf] at h
      exact absurd h (by simp)
  | succ n ih =>
    intro remains acc ts h hI
    cases remains with
    | nil =>
      simp only [lexFuel, LexResult.ok.injEq] at h
      rwa [← h]
    | cons c rest =>
      have hred : lexFuel (n + 1) (c :: rest) acc =
          match lexStep c rest acc with
          | none => .panic
          | some (r, a) => lexFuel n r a := rfl
      rw [hred] at h
      rcases hs : lexStep c rest acc with _ | p
      · rw [hs] at h
        exact absurd h (by simp)
      · rw [hs] at h
        exact ih p.1 p.2 ts h (lexStep_accInv c rest acc p.1 p.2 (by rw [hs]) hI)

theorem lexFuel_leading_spaces : ∀ (n : Nat) (s : List Char),
    lexFuel (n + s.length) (List.replicate n ' ' ++ s) [] = lexFuel s.length s [] := by
  intro n
  induction n with
  | zero => intro s; simp
  | succ m ih =>
    intro s
    rw [List.replicate_succ, List.cons_append]
    have harith : m + 1 + s.length = (m + s.length) + 1 := by omega
    rw [harith]
    have hred : lexFuel ((m + s.length) + 1) (' ' :: (List.replicate m ' ' ++ s)) [] =
        lexFuel (m + s.length) (List.replicate m ' ' ++ s) [] := rfl
    rw [hred, ih s]

/-! ## Claim C9 -/

/-- Claim C9: for every input, `lex` never outputs two adjacent `Space` tokens
and never outputs a `Space` token as the first token; moreover space characters
at the very beginning of the input are dropped without producing any token at
all (prepending any number of spaces does not change the result). -/
theorem lex_no_adjacent_space_no_leading_space :
    (∀ (s : List Char) (ts : List LexItem), lex s = .ok ts →
      noTwoSpaces ts ∧ ts.head? ≠ some LexItem.Space) ∧
    (∀ (n : Nat) (s : List Char), lex (List.replicate n ' ' ++ s) = lex s) := by
  constructor
  · intro s ts h
    unfold lex at h
    rcases hF : lexFuel s.length s [] with acc | _ | _ <;> rw [hF] at h
    · simp only [LexResult.ok.injEq] at h
      have hinv := lexFuel_accInv s.length s [] acc hF accInv_nil
      subst h
      constructor
      · have hstep : ∀ a b : LexItem, RSpace a b → flip RSpace a b := by
          intro a b hab
          intro hcon
          exact hab ⟨hcon.2, hcon.1⟩
        exact List.chain'_reverse.mpr (hinv.1.imp hstep)
      · rw [List.head?_reverse]
        exact hinv.2
    · exact absurd h (by simp)
    · exact absurd h (by simp)
  · intro n s
    unfold lex
    rw [List.length_append, List.length_replicate, lexFuel_leading_spaces n s]

/-- Witness for Claim C9 at the concrete input `"a b"`. -/
theorem lex_no_adjacent_space_witness :
    (noTwoSpaces [LexItem.Word ['a'], LexItem.Space, LexItem.Word ['b']] ∧
      ([LexItem.Word ['a'], LexItem.Space, LexItem.Word ['b']] : List LexItem).head? ≠
        some LexItem.Space) ∧
    lex (List.replicate 2 ' ' ++ "a".data) = lex ("a".data) :=
  ⟨lex_no_adjacent_space_no_leading_space.1 ("a b".data)
      [LexItem.Word ['a'], LexItem.Space, LexItem.Word ['b']] rfl,
    lex_no_adjacent_space_no_leading_space.2 2 ("a".data)⟩


/-- Number of `Space` tokens in a token list. -/
def countSpace (ts : List LexItem) : Nat := ts.countP (fun t => decide (t = LexItem.Space))

theorem countSpace_reverse (ts : List LexItem) : countSpace ts.reverse = countSpace ts :=
  List.countP_reverse _ _

theorem countSpace_cons_ne (t : LexItem) (ts : List LexItem) (ht : t ≠ .Space) :
    countSpace (t :: ts) = countSpace ts := by
  simp [countSpace, List.countP_cons, ht]

theorem countSpace_cons_space (ts : List LexItem) :
    countSpace (.Space :: ts) = countSpace ts + 1 := by
  simp [countSpace, List.countP_cons]

/-- Whether a space encountered now would be dropped or collapsed: the
accumulator is empty (start of input) or its most recent token is a `Space`. -/
def sflag (acc : List LexItem) : Bool :=
  match acc with
  | [] => true
  | .Space :: _ => true
  | _ => false

theorem sflag_cons_ne (t : LexItem) (l : List LexItem) (ht : t ≠ .Space) :
    sflag (t :: l) = false := by
  cases t with
  | Space => exact absurd rfl ht
  | At s => rfl
  | Paren c => rfl
  | Word s => rfl
  | Url s => rfl
  | NewLine => rfl

/-- Number of maximal runs of spaces in the character list that are NOT at the
very start: counts every space whose predecessor is not a space, with the
initial flag recording whether a space right now would extend an earlier run
(or the leading run). -/
def iRuns : Bool → List Char → Nat
  | _, [] => 0
  | prevSpace, c :: rest =>
    (if c = ' ' ∧ prevSpace = false then 1 else 0) + iRuns (decide (c = ' ')) rest

theorem iRuns_cons (b : Bool) (c : Char) (rest : List Char) :
    iRuns b (c :: rest) =
      (if c = ' ' ∧ b = false then 1 else 0) + iRuns (decide (c = ' ')) rest := rfl

theorem iRuns_cons_ne (b : Bool) (c : Char) (rest : List Char) (hc : c ≠ ' ') :
    iRuns b (c :: rest) = iRuns false rest := by
  rw [iRuns_cons]
  simp [hc]

theorem iRuns_append_nonspace (p : List Char) (l : List Char) (hp : ∀ x ∈ p, x ≠ ' ') :
    iRuns false (p ++ l) = iRuns false l := by
  induction p with
  | nil => simp
  | cons x xs ih =>
    rw [List.cons_append, iRuns_cons_ne _ _ _ (hp x (by simp))]
    exact ih (fun y hy => hp y (by simp [hy]))

theorem firstNonUrl_take : ∀ (l : List Char) (i : Nat), firstNonUrl l = some i →
    ∀ c ∈ l.take i, isUrlChar c := by
  intro l
  induction l with
  | nil =>
    intro i h c hc
    simp at hc
  | cons x xs ih =>
    intro i h c hc
    simp only [firstNonUrl] at h
    split_ifs at h with hx
    · rcases hi : firstNonUrl xs with _ | j
      · rw [hi] at h; simp at h
      · rw [hi] at h
        simp only [Option.map_some', Option.some.injEq] at h
        rw [← h, List.take_succ_cons] at hc
        rcases List.mem_cons.mp hc with hcx | hcm
        · rw [hcx]; exact hx
        · exact ih j hi c hcm
    · simp only [Option.some.injEq] at h
      rw [← h] at hc
      simp at hc

theorem firstNonUrl_none_all : ∀ (l : List Char), firstNonUrl l = none → ∀ c ∈ l, isUrlChar c := by
  intro l
  induction l with
  | nil =>
    intro _ c hc
    simp at hc
  | cons x xs ih =>
    intro h c hc
    simp only [firstNonUrl] at h
    split_ifs at h with hx
    · rcases hi : firstNonUrl xs with _ | j
      · rcases List.mem_cons.mp hc with hcx | hcm
        · rw [hcx]; exact hx
        · exact ih hi c hcm
      · rw [hi] at h; simp at h

/-- Every character of the slice captured into a `Url` token is a URL
character (in particular not a space and not `<`). -/
theorem urlSplit_pre_url (l pre suffix : List Char)
    (h : byteSplit (consume_url_chars l) l = some (pre, suffix)) :
    ∀ c ∈ pre, isUrlChar c := by
  intro c hc
  have happ := byteSplit_append l (consume_url_chars l) pre suffix h
  have hlen := byteSplit_pre_le l (consume_url_chars l) pre suffix h
  have hpre : pre = l.take pre.length := by
    rw [← happ, List.take_left]
  unfold consume_url_chars at hlen
  rcases hi : firstNonUrl l with _ | i
  · refine firstNonUrl_none_all l hi c ?_
    rw [← happ]
    exact List.mem_append.mpr (Or.inl hc)
  · rw [hi] at hlen
    refine firstNonUrl_take l i hi c ?_
    have h1 : pre = (l.take i).take pre.length := by
      rw [List.take_take, min_eq_left hlen]
      exact hpre
    exact List.take_subset _ _ (h1 ▸ hc)

theorem isUrlChar_props (c : Char) (h : isUrlChar c = true) : c ≠ ' ' ∧ c ≠ '<' := by
  constructor
  · rintro rfl
    exact absurd h (by decide)
  · rintro rfl
    exact absurd h (by decide)

theorem lexStep_iRuns (c : Char) (rest : List Char) (acc : List LexItem) (r : List Char)
    (a : List LexItem) (h : lexStep c rest acc = some (r, a)) (hlt : ('<' : Char) ∉ c :: rest) :
    ('<' : Char) ∉ r ∧
      countSpace a + iRuns (sflag a) r = countSpace acc + iRuns (sflag acc) (c :: rest) := by
  have hltr : ('<' : Char) ∉ rest := fun hm => hlt (List.mem_cons_of_mem _ hm)
  unfold lexStep at h
  split_ifs at h with e1 e2 e3 e4 e5 e6 e7
  · -- '@'
    simp only [Option.some.injEq, Prod.mk.injEq] at h
    rcases h with ⟨hr, ha⟩
    subst hr; subst ha; subst e1
    refine ⟨hltr, ?_⟩
    rw [countSpace_cons_ne _ _ (by simp), iRuns_cons_ne _ _ _ (by decide)]
    rfl
  · -- backslash
    simp only [Option.some.injEq, Prod.mk.injEq] at h
    rcases h with ⟨hr, ha⟩
    subst hr; subst e2
    refine ⟨hltr, ?_⟩
    split at ha
    next v acc2 =>
      split at ha
      · rw [← ha, countSpace_cons_ne _ _ (by simp), countSpace_cons_ne _ _ (by simp),
          iRuns_cons_ne _ _ _ (by decide)]
        rfl
      · rw [← ha, countSpace_cons_ne _ _ (by simp), countSpace_cons_ne _ _ (by simp),
          iRuns_cons_ne _ _ _ (by decide)]
        rfl
    next =>
      rw [← ha, countSpace_cons_ne _ _ (by simp), iRuns_cons_ne _ _ _ (by decide)]
      rfl
  · -- braces
    simp only [Option.some.injEq, Prod.mk.injEq] at h
    rcases h with ⟨hr, ha⟩
    subst hr; subst ha
    refine ⟨hltr, ?_⟩
    rcases e3 with rfl | rfl
    · rw [countSpace_cons_ne _ _ (by simp), iRuns_cons_ne _ _ _ (by decide)]
      rfl
    · rw [countSpace_cons_ne _ _ (by simp), iRuns_cons_ne _ _ _ (by decide)]
      rfl
  · -- space
    simp only [Option.some.injEq, Prod.mk.injEq] at h
    rcases h with ⟨hr, ha⟩
    subst hr; subst e4
    refine ⟨hltr, ?_⟩
    split at ha
    next =>
      rw [← ha, iRuns_cons]
      simp [sflag]
    next t acc2 =>
      split at ha
      next ht =>
        subst ht
        rw [← ha, iRuns_cons]
        simp [sflag]
      next ht =>
        rw [← ha, countSpace_cons_space, iRuns_cons, sflag_cons_ne t acc2 ht]
        have hsa : sflag (LexItem.Space :: t :: acc2) = true := rfl
        rw [hsa]
        have hone : (if (' ' : Char) = ' ' ∧ false = false then 1 else 0) = 1 := by simp
        have hdec : decide ((' ' : Char) = ' ') = true := rfl
        rw [hone, hdec]
        omega
  · -- newline
    simp only [Option.some.injEq, Prod.mk.injEq] at h
    rcases h with ⟨hr, ha⟩
    subst hr; subst ha; subst e5
    refine ⟨hltr, ?_⟩
    rw [countSpace_cons_ne _ _ (by simp), iRuns_cons_ne _ _ _ (by decide)]
    rfl
  · -- '<' is excluded by the hypothesis
    subst e6
    exact absurd (List.mem_cons_self _ _) hlt
  · -- url
    split at h
    next pre suffix hbs =>
      simp only [Option.some.injEq, Prod.mk.injEq] at h
      rcases h with ⟨hr, ha⟩
      subst hr; subst ha
      have happ := byteSplit_append rest (consume_url_chars rest) pre suffix hbs
      constructor
      · intro hm
        refine hltr ?_
        rw [← happ]
        exact List.mem_append.mpr (Or.inr hm)
      · rw [countSpace_cons_ne _ _ (by simp), iRuns_cons_ne _ _ _ (by rw [e7.1]; decide)]
        have hpre : ∀ x ∈ pre, x ≠ ' ' :=
          fun x hx => (isUrlChar_props x (urlSplit_pre_url rest pre suffix hbs x hx)).1
        rw [← happ, iRuns_append_nonspace pre suffix hpre]
        rfl
    next hbs => exact absurd h (by simp)
  · -- default
    simp only [Option.some.injEq, Prod.mk.injEq] at h
    rcases h with ⟨hr, ha⟩
    subst hr
    refine ⟨hltr, ?_⟩
    split at ha
    next v acc2 =>
      rw [← ha, countSpace_cons_ne _ _ (by simp), countSpace_cons_ne _ _ (by simp),
        iRuns_cons_ne _ _ _ e4]
      rfl
    next =>
      rw [← ha, countSpace_cons_ne _ _ (by simp), iRuns_cons_ne _ _ _ e4]
      have hs : sflag (LexItem.Word [c] :: acc) = false := rfl
      rw [hs]

theorem lexFuel_iRuns : ∀ (fuel : Nat) (remains : List Char) (acc ts : List LexItem),
    lexFuel fuel remains acc = .ok ts → ('<' : Char) ∉ remains →
    countSpace ts = countSpace acc + iRuns (sflag acc) remains := by
  intro fuel
  induction fuel with
  | zero =>
    intro remains acc ts h hlt
    cases remains with
    | nil =>
      simp only [lexFuel, LexResult.ok.injEq] at h
      rw [← h]
      rfl
    | cons c rest =>
      have hf : lexFuel 0 (c :: rest) acc = .fuelOut := rfl
      rw [hf] at h
      exact absurd h (by simp)
  | succ n ih =>
    intro remains acc ts h hlt
    cases remains with
    | nil =>
      simp only [lexFuel, LexResult.ok.injEq] at h
      rw [← h]
      rfl
    | cons c rest =>
      have hred : lexFuel (n + 1) (c :: rest) acc =
          match lexStep c rest acc with
          | none => .panic
          | some (r, a) => lexFuel n r a := rfl
      rw [hred] at h
      rcases hs : lexStep c rest acc with _ | p
      · rw [hs] at h
        exact absurd h (by simp)
      · rw [hs] at h
        have hstep := lexStep_iRuns c rest acc p.1 p.2 (by rw [hs]) hlt
        have hih := ih p.1 p.2 ts h hstep.1
        rw [hih, hstep.2]

/-! ## Claim C8 -/

/-- Claim C8 counterexample: the claim states that EVERY maximal run of spaces
yields exactly one `Space` token; for the input consisting of one space (a
single maximal run at the start of the input) `lex` emits no token at all. -/
theorem single_space_run_yields_no_token :
    lex [' '] = .ok [] ∧ countSpace ([] : List LexItem) ≠ 1 := ⟨rfl, by decide⟩

/-- Claim C8 (amended): for every input containing no `<` character, the number
of `Space` tokens emitted by `lex` equals the number of maximal space runs that
do not start at the very beginning of the input (equivalently, the number of
spaces directly preceded by a non-space character); a leading run yields no
`Space` token.  (An HTML rewrite triggered by `<` can swallow characters
without tokenizing them, hence the restriction.) -/
theorem lex_one_space_token_per_interior_run (s : List Char) (ts : List LexItem)
    (hlt : ('<' : Char) ∉ s) (h : lex s = .ok ts) :
    countSpace ts = iRuns true s := by
  unfold lex at h
  rcases hF : lexFuel s.length s [] with acc | _ | _ <;> rw [hF] at h
  · simp only [LexResult.ok.injEq] at h
    have hinv := lexFuel_iRuns s.length s [] acc hF hlt
    rw [← h, countSpace_reverse, hinv]
    have h0 : countSpace ([] : List LexItem) = 0 := rfl
    rw [h0, Nat.zero_add]
    rfl
  · exact absurd h (by simp)
  · exact absurd h (by simp)

/-- Witness for the amended Claim C8 theorem at the input `"a b"`. -/
theorem lex_one_space_token_per_interior_run_witness :
    (('<' : Char) ∉ "a b".data) ∧
      countSpace [LexItem.Word ['a'], LexItem.Space, LexItem.Word ['b']] = iRuns true ("a b".data) :=
  ⟨by decide,
    lex_one_space_token_per_interior_run ("a b".data)
      [LexItem.Word ['a'], LexItem.Space, LexItem.Word ['b']] (by decide) rfl⟩


/-! ## Concatenation invariant of the lexer (Claim C5) -/

/-- Concatenation of the textual content of a token sequence (spec §3):
each `Space` renders as one space, each `NewLine` as one newline. -/
def tokConcat (ts : List LexItem) : List Char := (ts.map tokText).flatten

/-- Concatenation of the reversed accumulator (tokens in emission order). -/
def flatR (acc : List LexItem) : List Char := tokConcat acc.reverse

theorem flatR_cons (t : LexItem) (acc : List LexItem) :
    flatR (t :: acc) = flatR acc ++ tokText t := by
  simp [flatR, tokConcat]

/-- Input discipline under which token concatenation reproduces the input
exactly: no `<` anywhere, and no space where the lexer would drop or collapse
it (the Boolean records whether a space would be dropped right now). -/
def spacedOk : Bool → List Char → Bool
  | _, [] => true
  | b, c :: rest =>
    if c = ' ' then !b && spacedOk true rest
    else decide (c ≠ '<') && spacedOk false rest

theorem spacedOk_cons_space (b : Bool) (rest : List Char) :
    spacedOk b (' ' :: rest) = (!b && spacedOk true rest) := rfl

theorem spacedOk_cons_ne (b : Bool) (c : Char) (rest : List Char) (hc : c ≠ ' ') :
    spacedOk b (c :: rest) = (decide (c ≠ '<') && spacedOk false rest) := by
  simp only [spacedOk]
  rw [if_neg hc]

theorem band_split (a b : Bool) (h : (a && b) = true) : a = true ∧ b = true := by
  simp only [Bool.and_eq_true] at h
  exact h

theorem spacedOk_append_nonspace (p l : List Char) (hp : ∀ x ∈ p, x ≠ ' ' ∧ x ≠ '<') :
    spacedOk false (p ++ l) = spacedOk false l := by
  induction p with
  | nil => simp
  | cons x xs ih =>
    rw [List.cons_append, spacedOk_cons_ne false x _ (hp x (by simp)).1]
    have hx : decide (x ≠ '<') = true := by
      simp [(hp x (by simp)).2]
    rw [hx, Bool.true_and]
    exact ih (fun y hy => hp y (by simp [hy]))

theorem lexStep_flat (c : Char) (rest : List Char) (acc : List LexItem) (r : List Char)
    (a : List LexItem) (h : lexStep c rest acc = some (r, a))
    (hok : spacedOk (sflag acc) (c :: rest) = true) :
    spacedOk (sflag a) r = true ∧ flatR a ++ r = flatR acc ++ (c :: rest) := by
  unfold lexStep at h
  split_ifs at h with e1 e2 e3 e4 e5 e6 e7
  · -- '@'
    simp only [Option.some.injEq, Prod.mk.injEq] at h
    rcases h with ⟨hr, ha⟩
    subst hr; subst ha; subst e1
    rw [spacedOk_cons_ne _ _ _ (by decide)] at hok
    rcases band_split _ _ hok with ⟨_, hok2⟩
    refine ⟨hok2, ?_⟩
    rw [flatR_cons]
    simp [tokText, List.append_assoc]
  · -- backslash
    simp only [Option.some.injEq, Prod.mk.injEq] at h
    rcases h with ⟨hr, ha⟩
    subst hr; subst e2
    rw [spacedOk_cons_ne _ _ _ (by decide)] at hok
    rcases band_split _ _ hok with ⟨_, hok2⟩
    split at ha
    next v acc2 =>
      split at ha
      next hv =>
        subst hv
        refine ⟨by rw [← ha]; exact hok2, ?_⟩
        rw [← ha, flatR_cons, flatR_cons]
        simp [tokText, List.append_assoc]
      next hv =>
        refine ⟨by rw [← ha]; exact hok2, ?_⟩
        rw [← ha, flatR_cons]
        simp [tokText, List.append_assoc]
    next =>
      refine ⟨by rw [← ha]; exact hok2, ?_⟩
      rw [← ha, flatR_cons]
      simp [tokText, List.append_assoc]
  · -- braces
    simp only [Option.some.injEq, Prod.mk.injEq] at h
    rcases h with ⟨hr, ha⟩
    subst hr; subst ha
    have hc : c ≠ ' ' := by rcases e3 with rfl | rfl <;> decide
    rw [spacedOk_cons_ne _ _ _ hc] at hok
    rcases band_split _ _ hok with ⟨_, hok2⟩
    refine ⟨hok2, ?_⟩
    rw [flatR_cons]
    simp [tokText, List.append_assoc]
  · -- space
    simp only [Option.some.injEq, Prod.mk.injEq] at h
    rcases h with ⟨hr, ha⟩
    subst hr; subst e4
    rw [spacedOk_cons_space] at hok
    rcases band_split _ _ hok with ⟨hnb, hok2⟩
    split at ha
    next =>
      have hs : sflag ([] : List LexItem) = true := rfl
      rw [hs] at hnb
      exact absurd hnb (by decide)
    next t acc2 =>
      split at ha
      next ht =>
        subst ht
        have hs : sflag (LexItem.Space :: acc2) = true := rfl
        rw [hs] at hnb
        exact absurd hnb (by decide)
      next ht =>
        constructor
        · rw [← ha]
          exact hok2
        · rw [← ha, flatR_cons]
          simp [tokText, List.append_assoc]
  · -- newline
    simp only [Option.some.injEq, Prod.mk.injEq] at h
    rcases h with ⟨hr, ha⟩
    subst hr; subst ha; subst e5
    rw [spacedOk_cons_ne _ _ _ (by decide)] at hok
    rcases band_split _ _ hok with ⟨_, hok2⟩
    refine ⟨hok2, ?_⟩
    rw [flatR_cons]
    simp [tokText, List.append_assoc]
  · -- '<' is excluded by the spacing discipline
    subst e6
    rw [spacedOk_cons_ne _ _ _ (by decide)] at hok
    rcases band_split _ _ hok with ⟨habs, _⟩
    exact absurd habs (by decide)
  · -- url
    split at h
    next pre suffix hbs =>
      simp only [Option.some.injEq, Prod.mk.injEq] at h
      rcases h with ⟨hr, ha⟩
      subst hr; subst ha
      have happ := byteSplit_append rest (consume_url_chars rest) pre suffix hbs
      have hc : c ≠ ' ' := by rw [e7.1]; decide
      rw [spacedOk_cons_ne _ _ _ hc] at hok
      rcases band_split _ _ hok with ⟨_, hok2⟩
      have hpre : ∀ x ∈ pre, x ≠ ' ' ∧ x ≠ '<' :=
        fun x hx => isUrlChar_props x (urlSplit_pre_url rest pre suffix hbs x hx)
      constructor
      · have hsuf : spacedOk false suffix = true := by
          rw [← spacedOk_append_nonspace pre suffix hpre, happ]
          exact hok2
        exact hsuf
      · rw [flatR_cons]
        have : flatR acc ++ tokText (LexItem.Url (c :: pre)) ++ suffix =
            flatR acc ++ (c :: (pre ++ suffix)) := by
          simp [tokText, List.append_assoc]
        rw [this, happ]
    next hbs => exact absurd h (by simp)
  · -- default
    simp only [Option.some.injEq, Prod.mk.injEq] at h
    rcases h with ⟨hr, ha⟩
    subst hr
    rw [spacedOk_cons_ne _ _ _ e4] at hok
    rcases band_split _ _ hok with ⟨_, hok2⟩
    split at ha
    next v acc2 =>
      refine ⟨by rw [← ha]; exact hok2, ?_⟩
      rw [← ha, flatR_cons, flatR_cons]
      simp [tokText, List.append_assoc]
    next =>
      refine ⟨?_, ?_⟩
      · rw [← ha]
        have hs : sflag (LexItem.Word [c] :: acc) = false := rfl
        rw [hs]
        exact hok2
      · rw [← ha, flatR_cons]
        simp [tokText, List.append_assoc]

theorem lexFuel_flat : ∀ (fuel : Nat) (remains : List Char) (acc ts : List LexItem),
    lexFuel fuel remains acc = .ok ts → spacedOk (sflag acc) remains = true →
    flatR ts = flatR acc ++ remains := by
  intro fuel
  induction fuel with
  | zero =>
    intro remains acc ts h hok
    cases remains with
    | nil =>
      simp only [lexFuel, LexResult.ok.injEq] at h
      rw [← h]
      simp
    | cons c rest =>
      have hf : lexFuel 0 (c :: rest) acc = .fuelOut := rfl
      rw [hf] at h
      exact absurd h (by simp)
  | succ n ih =>
    intro remains acc ts h hok
    cases remains with
    | nil =>
      simp only [lexFuel, LexResult.ok.injEq] at h
      rw [← h]
      simp
    | cons c rest =>
      have hred : lexFuel (n + 1) (c :: rest) acc =
          match lexStep c rest acc with
          | none => .panic
          | some (r, a) => lexFuel n r a := rfl
      rw [hred] at h
      rcases hs : lexStep c rest acc with _ | p
      · rw [hs] at h
        exact absurd h (by simp)
      · rw [hs] at h
        have hstep := lexStep_flat c rest acc p.1 p.2 (by rw [hs]) hok
        have hih := ih p.1 p.2 ts h hstep.1
        rw [hih, hstep.2]

/-! ## Claim C5 -/

/-- Claim C5 counterexample: the claim states that token concatenation
reproduces the input modulo only the URL/HTML rewriting.  The input `"a  b"`
involves neither URLs nor HTML tags, yet its two consecutive spaces collapse to
one `Space` token, so the concatenation `"a b"` differs from the input. -/
theorem double_space_not_reproduced :
    lex ("a  b".data) = .ok [LexItem.Word ['a'], LexItem.Space, LexItem.Word ['b']] ∧
      tokConcat [LexItem.Word ['a'], LexItem.Space, LexItem.Word ['b']] ≠ "a  b".data :=
  ⟨rfl, by decide⟩

/-- Claim C5 (amended): for every input that contains no `<` character, does
not begin with a space and has no two adjacent spaces (the discipline
`spacedOk true`), if `lex` succeeds then concatenating the tokens' textual
content — `Space` as one space, `NewLine` as one newline — reproduces the
input exactly (URLs are captured verbatim, so no rewriting is involved at the
token level). -/
theorem lex_concat_reproduces_input (s : List Char) (ts : List LexItem)
    (hok : spacedOk true s = true) (h : lex s = .ok ts) : tokConcat ts = s := by
  unfold lex at h
  rcases hF : lexFuel s.length s [] with acc | _ | _ <;> rw [hF] at h
  · simp only [LexResult.ok.injEq] at h
    have hinv := lexFuel_flat s.length s [] acc hF hok
    rw [← h]
    have hcc : tokConcat acc.reverse = flatR acc := rfl
    rw [hcc, hinv]
    rfl
  · exact absurd h (by simp)
  · exact absurd h (by simp)

/-- Witness for the amended Claim C5 theorem at the input `"a b"`. -/
theorem lex_concat_reproduces_input_witness :
    spacedOk true ("a b".data) = true ∧
      tokConcat [LexItem.Word ['a'], LexItem.Space, LexItem.Word ['b']] = "a b".data :=
  ⟨rfl,
    lex_concat_reproduces_input ("a b".data)
      [LexItem.Word ['a'], LexItem.Space, LexItem.Word ['b']] rfl rfl⟩

end Doxygen
